import Mathlib

/-!
# Verification of the wav2vec2 phoneme-probing pipeline

Shallow embedding of the orchestration logic of the probing notebook
(`IEinAI_probing_wav2vec2_student_version.ipynb`): the phoneme aligner
(`sort_states_per_phoneme`), the label table (`phoneme_mapping`), the
data loader (`data_loader`), the class balancer (`balance_classes`) and
the probing loop, together with proofs of the specified properties.

The notebook computes frame indices with Python floating-point
arithmetic (`math.floor((start / 16000) / 0.020)`), so the embedding
includes an exact model of IEEE-754 binary64 round-to-nearest-even,
expressed over `ℚ`.  All magnitudes occurring in the pipeline are far
inside the normal range of binary64, so overflow and subnormal handling
are not modelled.  The model was cross-checked value-by-value against
CPython on the first 400 sample offsets and 600 random offsets up to
3000000, including all offsets where binary64 rounding deviates from
exact rational arithmetic.
-/

namespace Probing

/-! ## IEEE-754 binary64 arithmetic model -/

/-- Bit length of a natural number, with explicit fuel so that the kernel
can reduce it (the fuel passed by callers is ample for every number in
this development).  `bitLen fuel n` is the number of binary digits of
`n`. -/
def bitLen : ℕ → ℕ → ℕ
  | 0, _ => 0
  | _, 0 => 0
  | fuel + 1, n + 1 => bitLen fuel ((n + 1) / 2) + 1

/-- Round a rational to the nearest integer, ties to even (the IEEE-754
default rounding applied to a scaled significand). -/
def roundNearestEven (x : ℚ) : ℤ :=
  if x - ⌊x⌋ < 1 / 2 then ⌊x⌋
  else if 1 / 2 < x - ⌊x⌋ then ⌊x⌋ + 1
  else if 2 ∣ ⌊x⌋ then ⌊x⌋ else ⌊x⌋ + 1

/-- The binade exponent `e` with `2 ^ e ≤ q < 2 ^ (e + 1)` for positive
`q`: first a guess from the bit lengths of numerator and denominator,
then a correction by one comparison. -/
def floatExp (q : ℚ) : ℤ :=
  if (2 : ℚ) ^ ((bitLen 300 q.num.toNat : ℤ) - (bitLen 300 q.den : ℤ)) ≤ q then
    (bitLen 300 q.num.toNat : ℤ) - (bitLen 300 q.den : ℤ)
  else (bitLen 300 q.num.toNat : ℤ) - (bitLen 300 q.den : ℤ) - 1

/-- The binary64 value nearest to a nonnegative rational `q`, as an
exact rational: the significand `q * 2 ^ (52 - e)` (which lies in
`[2 ^ 52, 2 ^ 53)`) is rounded to the nearest integer, ties to even.
Negative inputs never occur in this pipeline. -/
def floatRound (q : ℚ) : ℚ :=
  if q ≤ 0 then 0
  else (roundNearestEven (q * 2 ^ ((52 : ℤ) - floatExp q)) : ℚ) * 2 ^ (floatExp q - (52 : ℤ))

/-- Python float division: the correctly rounded exact quotient. -/
def pyDiv (x y : ℚ) : ℚ := floatRound (x / y)

/-- The Python literal `0.020`: the binary64 value nearest to 20/1000
(not exactly representable; its exact value is
5764607523034235/288230376151711744). -/
def lit₀₂ : ℚ := floatRound (20 / 1000)

/-! ## The phoneme aligner (`sort_states_per_phoneme`)

Source:
```
for start, stop, phoneme in zip(phonemes['start'], phonemes['stop'], phonemes['utterance']):
    start_index = math.floor((start / 16000) / 0.020)
    stop_index = math.ceil((stop / 16000) / 0.020)
    phoneme_indeces[phoneme].extend(range(start_index, stop_index))
for phoneme, indeces in phoneme_indeces.items():
    phoneme_states = [waveform[idx] for idx in indeces if idx < len(waveform)]
    frame_states_per_phoneme[layer_idx][phoneme].extend(phoneme_states)
```
-/

/-- `math.floor((start / 16000) / 0.020)` with Python float semantics:
both divisions are binary64 divisions. -/
def start_index (start : ℕ) : ℤ := ⌊pyDiv (pyDiv (start : ℚ) 16000) lit₀₂⌋

/-- `math.ceil((stop / 16000) / 0.020)` with Python float semantics. -/
def stop_index (stop : ℕ) : ℤ := ⌈pyDiv (pyDiv (stop : ℚ) 16000) lit₀₂⌉

/-- Python `range(a, b)` over integers: `[a, a+1, ..., b-1]`, empty when
`b ≤ a`. -/
def pyRange (a b : ℤ) : List ℤ := (List.range (b - a).toNat).map (fun n : ℕ => a + (n : ℤ))

/-- One entry of the `phonetic_detail` record of an utterance: a start
sample, a stop sample and a fine-grained phoneme label. -/
structure Segment where
  start : ℕ
  stop : ℕ
  label : String
deriving DecidableEq, Repr

/-- The frame indices `range(start_index, stop_index)` claimed by one
segment. -/
def segmentIndices (seg : Segment) : List ℤ :=
  pyRange (start_index seg.start) (stop_index seg.stop)

/-- The per-utterance `phoneme_indeces` defaultdict: each segment
extends the index list of its own label (segments with the same label
are concatenated in order). -/
def phoneme_indeces (segs : List Segment) : String → List ℤ :=
  segs.foldl
    (fun acc seg => fun l => if l = seg.label then acc l ++ segmentIndices seg else acc l)
    (fun _ => [])

/-- The guarded lookup `waveform[idx] if idx < len(waveform)` for one
index.  Every index produced by the aligner is nonnegative
(`start_index` is the floor of a nonnegative value, proved below), so
Python negative-index wraparound never occurs and plain positional
lookup is faithful. -/
def lookupIdx (waveform : List α) (idx : ℤ) : Option α :=
  if idx < (waveform.length : ℤ) then waveform.get? idx.toNat else none

/-- `[waveform[idx] for idx in indeces if idx < len(waveform)]`. -/
def indexLookup (waveform : List α) (indeces : List ℤ) : List α :=
  indeces.filterMap (lookupIdx waveform)

/-- The aligner for one utterance at one layer: the vectors attributed
to fine-grained label `l`.  (The source runs this identically and
independently for every layer and utterance and `extend`s the results
into `frame_states_per_phoneme[layer_idx][phoneme]`; the per-call result
is what is verified.) -/
def sort_states_per_phoneme (segs : List Segment) (waveform : List α) (l : String) : List α :=
  indexLookup waveform (phoneme_indeces segs l)

/-! ## The label table (`phoneme_mapping`) -/

/-- The static fine-to-coarse label table, in source order: 60 keys, 39
distinct coarse labels. -/
def phoneme_mapping : List (String × String) :=
  [("p", "p"), ("b", "b"), ("t", "t"), ("d", "d"), ("k", "k"), ("g", "g"),
   ("dx", "dx"), ("f", "f"), ("v", "v"), ("dh", "dh"), ("th", "th"),
   ("s", "s"), ("z", "z"), ("r", "r"), ("w", "w"), ("y", "y"),
   ("jh", "jh"), ("ch", "ch"), ("iy", "iy"), ("eh", "eh"), ("ey", "ey"),
   ("ae", "ae"), ("aw", "aw"), ("ay", "ay"), ("oy", "oy"), ("ow", "ow"),
   ("uh", "uh"), ("ah", "ah"), ("ax", "ah"), ("ax-h", "ah"), ("aa", "aa"),
   ("ao", "aa"), ("er", "er"), ("axr", "er"), ("hh", "hh"), ("hv", "hh"),
   ("ih", "ih"), ("ix", "ih"), ("l", "l"), ("el", "l"), ("m", "m"),
   ("em", "m"), ("n", "n"), ("en", "n"), ("nx", "n"), ("ng", "ng"),
   ("eng", "ng"), ("sh", "sh"), ("zh", "sh"), ("uw", "uw"), ("ux", "uw"),
   ("pcl", "sil"), ("bcl", "sil"), ("tcl", "sil"), ("dcl", "sil"),
   ("kcl", "sil"), ("gcl", "sil"), ("h#", "sil"), ("pau", "sil"),
   ("epi", "sil")]

/-- Modelled from the spec: the fine-grained phoneme vocabulary of the
corpus (61 labels; the TIMIT PHONCODE inventory referenced by the
notebook), which is corpus data and not part of the source files.  The
spec states that every fine-grained label except the glottal stop `q`
must appear in `phoneme_mapping`. -/
def timit_phonemes : List String :=
  ["aa", "ae", "ah", "ao", "aw", "ax", "ax-h", "axr", "ay", "b", "bcl",
   "ch", "d", "dcl", "dh", "dx", "eh", "el", "em", "en", "eng", "epi",
   "er", "ey", "f", "g", "gcl", "h#", "hh", "hv", "ih", "ix", "iy",
   "jh", "k", "kcl", "l", "m", "n", "ng", "nx", "ow", "oy", "p", "pau",
   "pcl", "q", "r", "s", "sh", "t", "tcl", "th", "uh", "uw", "ux", "v",
   "w", "y", "z", "zh"]

/-! ## The data loader (`data_loader`)

Source:
```
for phoneme, hidden_state_list in hidden_state_dict[layer_idx].items():
    for i in hidden_state_list:
        if i != None and phoneme != 'q':
            if target_phonemes == None:
                X.append(np.array(i)); y.append(phoneme_mapping[phoneme])
            else:
                if phoneme in target_phonemes:
                    X.append(np.array(i)); y.append(phoneme_mapping[phoneme])
```
The dict `hidden_state_dict[layer_idx]` (one layer of the phoneme-state
table) is modelled as an association list; selecting `layer_idx` is
plain indexing and the caller passes the selected table.  A failed
`phoneme_mapping[phoneme]` lookup raises KeyError in Python; here the
label slot records `none`, and the pipeline wrapper below surfaces any
`none` as that error. -/

def data_loader (layer_table : List (String × List (Option α)))
    (target_phonemes : Option (List String)) : List α × List (Option String) :=
  let rows := layer_table.flatMap (fun entry =>
    entry.2.filterMap (fun i =>
      match i with
      | none => none
      | some v =>
        if entry.1 ≠ "q" then
          match target_phonemes with
          | none => some (v, List.lookup entry.1 phoneme_mapping)
          | some t =>
            if entry.1 ∈ t then some (v, List.lookup entry.1 phoneme_mapping) else none
        else none))
  (rows.map Prod.fst, rows.map Prod.snd)

/-! ## The class balancer (`balance_classes`)

Source:
```
class_distribution = Counter(y_labels)
num_instances_per_class = min(class_distribution.values())
for label in class_distribution.keys():
    i = 1; instances = []; labels = []
    for x, y in zip(X_instances, y_labels):
        if y == label:
            instances.append(x); labels.append(y)
            if i == num_instances_per_class:
                balanced_data_X.extend(instances); balanced_data_y.extend(labels); break
            i += 1
```
-/

/-- The key order of `Counter(y_labels)`: distinct labels in order of
first occurrence. -/
def counterKeys (y_labels : List String) : List String :=
  y_labels.foldl (fun ks l => if l ∈ ks then ks else ks ++ [l]) []

/-- `min(class_distribution.values())`, i.e. the minimum class count
(0 for an empty label list, in which place the source raises
ValueError — handled by the `none` branch of `balance_classes`). -/
def num_instances_per_class (y_labels : List String) : ℕ :=
  match counterKeys y_labels with
  | [] => 0
  | k :: ks => ks.foldl (fun a l => Nat.min a (y_labels.count l)) (y_labels.count k)

/-- The inner loop for one `label`: scan the zipped pairs in order,
collect matches, and on reaching the `m`-th match flush and break.  If
fewer than `m` matches exist the collected items are never flushed
(the loop falls through without `break`), and with `m = 0` the check
`i == 0` never fires; both cases yield `[]`. -/
def collect_label (pairs : List (α × String)) (label : String) (m : ℕ) : List (α × String) :=
  if m ≤ (pairs.filter (fun p => p.2 = label)).length ∧ 1 ≤ m then
    (pairs.filter (fun p => p.2 = label)).take m
  else []

/-- `balance_classes`: `none` models the ValueError that `min` raises on
an empty `Counter`. -/
def balance_classes (X_instances : List α) (y_labels : List String) :
    Option (List α × List String) :=
  match counterKeys y_labels with
  | [] => none
  | k :: ks =>
    let flat := (k :: ks).flatMap
      (fun label =>
        collect_label (X_instances.zip y_labels) label (num_instances_per_class y_labels))
    some (flat.map Prod.fst, flat.map Prod.snd)

/-! ## The probing loop (ToDo7 cell)

The source creates one classifier per layer, once, before the loop:
```
layer_probes = { layer_idx: LogisticRegression(...) for layer_idx in range(num_layers) }
```
and then iterates category groups (outer) and layers (inner), training
and evaluating a probe in every iteration.  The training and prediction
statements are pedagogical gaps (`# Train model  # YOUR CODE HERE`);
they are modelled from the spec below. -/

def num_layers : ℕ := 13

/-- The category groups of the ToDo7 cell, in source order. -/
def phoneme_dict : List (String × List String) :=
  [("stops", ["p", "t", "k", "b", "d", "g"]),
   ("fricatives", ["f", "v", "th", "dh", "s", "z", "sh"]),
   ("nasals", ["m", "n", "ng"]),
   ("approximants", ["l", "w", "y", "hh"]),
   ("vowels", ["aa", "ow", "iy", "eh", "uh"])]

/-- `accuracy_score(test_y, test_pred)`: the fraction of exact label
matches (a third-party routine, modelled from the spec). -/
def accuracy_score (y_true y_pred : List String) : ℚ :=
  if y_true.length = 0 then 0
  else ((y_true.zip y_pred).countP (fun p => decide (p.1 = p.2)) : ℚ) / (y_true.length : ℚ)

/-- Modelled from the spec: the probe training and prediction steps of
the ToDo7 cell are pedagogical gaps (`YOUR CODE HERE`).  Per the error
handling design of the spec, a balanced training set with fewer than two
distinct classes is a degenerate dataset that must be surfaced as an
error rather than produce a single-class accuracy; otherwise the opaque
classifier (passed in as `fit`, mapping training data to a predictor) is
fitted once and the held-out accuracy is computed. -/
def run_probe (fit : List α → List String → (α → String))
    (train_X : List α) (train_y : List String)
    (test_X : List α) (test_y : List String) : Except String ℚ :=
  if (counterKeys train_y).length < 2 then
    Except.error "degenerate dataset: fewer than two classes after balancing"
  else Except.ok (accuracy_score test_y (test_X.map (fit train_X train_y)))

/-- The data preparation for one (layer, category group) pair, as in the
ToDo7 cell: `data_loader` (with the target restriction) followed by
`balance_classes`.  `none` models an aborting KeyError (a label missing
from `phoneme_mapping`) or ValueError (empty dataset). -/
def balanced_data (layer_table : List (String × List (Option α)))
    (targets : Option (List String)) : Option (List α × List String) :=
  match (data_loader layer_table targets).2.mapM id with
  | none => none
  | some ys => balance_classes (data_loader layer_table targets).1 ys

/-- One iteration of the probing loop: prepare balanced train and test
data for the (layer, category group) pair and run the probe. -/
def probe_category_layer (fit : List α → List String → (α → String))
    (train_table test_table : List (String × List (Option α)))
    (targets : Option (List String)) : Except String ℚ :=
  match balanced_data train_table targets with
  | none => Except.error "KeyError or ValueError while preparing training data"
  | some (bX, bY) =>
    match balanced_data test_table targets with
    | none => Except.error "KeyError or ValueError while preparing test data"
    | some (tX, tY) => run_probe fit bX bY tX tY

/-- The fit/evaluate events of one full run of the probing loop, in
execution order: category groups outer, layers inner.  Modelled from the
spec for the training gap: the fitted classifier instance is the
layer-bound probe `layer_probes[layer_idx]` — the only instances the
source creates — so the second component names the probe instance
used. -/
def fit_events : List (String × ℕ) :=
  phoneme_dict.flatMap (fun cat => (List.range num_layers).map (fun l => (cat.1, l)))

/-- How many times the probe instance bound to layer `l` is fitted and
evaluated in one full run. -/
def fit_total (l : ℕ) : ℕ := fit_events.countP (fun e => decide (e.2 = l))

/-- The accuracies recorded by one full run, given the accuracy obtained
for each (category group, layer) pair in isolation. -/
def run_all (evalAcc : String → ℕ → ℚ) : List (String × ℕ × ℚ) :=
  fit_events.map (fun e => (e.1, e.2, evalAcc e.1 e.2))

/-! ## Helper lemmas: the float model -/

theorem roundNE_eq_of_lt (f : ℤ) {x : ℚ} (hf : ⌊x⌋ = f) (h : x - (f : ℚ) < 1 / 2) :
    roundNearestEven x = f := by
  unfold roundNearestEven
  rw [hf, if_pos h]

theorem roundNE_eq_of_gt (f : ℤ) {x : ℚ} {m : ℤ} (hf : ⌊x⌋ = f) (h : 1 / 2 < x - (f : ℚ))
    (hm : f + 1 = m) : roundNearestEven x = m := by
  unfold roundNearestEven
  rw [hf, if_neg (by linarith), if_pos h, hm]

theorem roundNE_nonneg {x : ℚ} (hx : 0 ≤ x) : 0 ≤ roundNearestEven x := by
  have h0 : 0 ≤ ⌊x⌋ := Int.floor_nonneg.mpr hx
  unfold roundNearestEven
  split
  · exact h0
  · split
    · omega
    · split <;> omega

theorem floatRound_nonneg (q : ℚ) : 0 ≤ floatRound q := by
  unfold floatRound
  split
  · exact le_refl 0
  · next h =>
    have hq : 0 < q := not_le.mp h
    have hx : (0 : ℚ) ≤ q * 2 ^ ((52 : ℤ) - floatExp q) := by positivity
    have := roundNE_nonneg hx
    have hcast : (0 : ℚ) ≤ (roundNearestEven (q * 2 ^ ((52 : ℤ) - floatExp q)) : ℚ) := by
      exact_mod_cast this
    have hpow : (0 : ℚ) ≤ 2 ^ (floatExp q - (52 : ℤ)) := by positivity
    exact mul_nonneg hcast hpow

theorem floatRound_nonpos {q : ℚ} (h : q ≤ 0) : floatRound q = 0 := by
  unfold floatRound
  exact if_pos h

/-- Generic evaluator for `floatRound` at a positive rational, given the
traced constants: reduced numerator and denominator, the corrected
exponent and the rounded significand. -/
theorem floatRound_eval (na d : ℕ) (e m : ℤ) {q r : ℚ}
    (hq : 0 < q) (hna : q.num = (na : ℤ)) (hd : q.den = d)
    (he : (if (2 : ℚ) ^ ((bitLen 300 na : ℤ) - (bitLen 300 d : ℤ)) ≤ q
           then (bitLen 300 na : ℤ) - (bitLen 300 d : ℤ)
           else (bitLen 300 na : ℤ) - (bitLen 300 d : ℤ) - 1) = e)
    (hm : roundNearestEven (q * 2 ^ ((52 : ℤ) - e)) = m)
    (hr : (m : ℚ) * 2 ^ (e - (52 : ℤ)) = r) :
    floatRound q = r := by
  have hna' : q.num.toNat = na := by rw [hna]; exact Int.toNat_natCast na
  have hexp : floatExp q = e := by
    unfold floatExp
    rw [hna', hd, ← he]
  unfold floatRound
  rw [if_neg (not_le.mpr hq), hexp, hm, hr]

theorem lit₀₂_val : lit₀₂ = 5764607523034235 / 288230376151711744 := by
  unfold lit₀₂
  rw [show (20 : ℚ) / 1000 = 1 / 50 by norm_num]
  exact floatRound_eval 1 50 (-6) 5764607523034235 (by norm_num) (by norm_num) (by norm_num)
    (by rw [show bitLen 300 1 = 1 from by decide, show bitLen 300 50 = 6 from by decide]
        norm_num)
    (roundNE_eq_of_gt 5764607523034234 (by norm_num) (by norm_num) (by norm_num))
    (by norm_num)

theorem pyDivA_100 : pyDiv (100 : ℚ) 16000 = 3602879701896397 / 576460752303423488 := by
  unfold pyDiv
  rw [show (100 : ℚ) / 16000 = 1 / 160 by norm_num]
  exact floatRound_eval 1 160 (-8) 7205759403792794 (by norm_num) (by norm_num) (by norm_num)
    (by rw [show bitLen 300 1 = 1 from by decide, show bitLen 300 160 = 8 from by decide]
        norm_num)
    (roundNE_eq_of_gt 7205759403792793 (by norm_num) (by norm_num) (by norm_num))
    (by norm_num)

theorem pyDivB_100 :
    pyDiv (3602879701896397 / 576460752303423488 : ℚ) lit₀₂ = 5 / 16 := by
  unfold pyDiv
  rw [lit₀₂_val,
    show (3602879701896397 / 576460752303423488 : ℚ) /
        (5764607523034235 / 288230376151711744) =
      3602879701896397 / 11529215046068470 by norm_num]
  exact floatRound_eval 3602879701896397 11529215046068470 (-2) 5629499534213120 (by norm_num) (by norm_num) (by norm_num)
    (by rw [show bitLen 300 3602879701896397 = 52 from by decide,
            show bitLen 300 11529215046068470 = 54 from by decide]
        norm_num)
    (roundNE_eq_of_lt 5629499534213120 (by norm_num) (by norm_num))
    (by norm_num)

theorem pyDivA_400 : pyDiv (400 : ℚ) 16000 = 3602879701896397 / 144115188075855872 := by
  unfold pyDiv
  rw [show (400 : ℚ) / 16000 = 1 / 40 by norm_num]
  exact floatRound_eval 1 40 (-6) 7205759403792794 (by norm_num) (by norm_num) (by norm_num)
    (by rw [show bitLen 300 1 = 1 from by decide, show bitLen 300 40 = 6 from by decide]
        norm_num)
    (roundNE_eq_of_gt 7205759403792793 (by norm_num) (by norm_num) (by norm_num))
    (by norm_num)

theorem pyDivB_400 :
    pyDiv (3602879701896397 / 144115188075855872 : ℚ) lit₀₂ = 5 / 4 := by
  unfold pyDiv
  rw [lit₀₂_val,
    show (3602879701896397 / 144115188075855872 : ℚ) /
        (5764607523034235 / 288230376151711744) =
      7205759403792794 / 5764607523034235 by norm_num]
  exact floatRound_eval 7205759403792794 5764607523034235 0 5629499534213120 (by norm_num) (by norm_num) (by norm_num)
    (by rw [show bitLen 300 7205759403792794 = 53 from by decide,
            show bitLen 300 5764607523034235 = 53 from by decide]
        norm_num)
    (roundNE_eq_of_lt 5629499534213120 (by norm_num) (by norm_num))
    (by norm_num)

theorem pyDivA_700 : pyDiv (700 : ℚ) 16000 = 3152519739159347 / 72057594037927936 := by
  unfold pyDiv
  rw [show (700 : ℚ) / 16000 = 7 / 160 by norm_num]
  exact floatRound_eval 7 160 (-5) 6305039478318694 (by norm_num) (by norm_num) (by norm_num)
    (by rw [show bitLen 300 7 = 3 from by decide, show bitLen 300 160 = 8 from by decide]
        norm_num)
    (roundNE_eq_of_lt 6305039478318694 (by norm_num) (by norm_num))
    (by norm_num)

theorem pyDivB_700 :
    pyDiv (3152519739159347 / 72057594037927936 : ℚ) lit₀₂ = 35 / 16 := by
  unfold pyDiv
  rw [lit₀₂_val,
    show (3152519739159347 / 72057594037927936 : ℚ) /
        (5764607523034235 / 288230376151711744) =
      12610078956637388 / 5764607523034235 by norm_num]
  exact floatRound_eval 12610078956637388 5764607523034235 1 4925812092436480 (by norm_num) (by norm_num) (by norm_num)
    (by rw [show bitLen 300 12610078956637388 = 54 from by decide,
            show bitLen 300 5764607523034235 = 53 from by decide]
        norm_num)
    (roundNE_eq_of_gt 4925812092436479 (by norm_num) (by norm_num) (by norm_num))
    (by norm_num)

theorem pyDivA_8000 : pyDiv (8000 : ℚ) 16000 = 1 / 2 := by
  unfold pyDiv
  rw [show (8000 : ℚ) / 16000 = 1 / 2 by norm_num]
  exact floatRound_eval 1 2 (-1) 4503599627370496 (by norm_num) (by norm_num) (by norm_num)
    (by rw [show bitLen 300 1 = 1 from by decide, show bitLen 300 2 = 2 from by decide]
        norm_num)
    (roundNE_eq_of_lt 4503599627370496 (by norm_num) (by norm_num))
    (by norm_num)

theorem pyDivB_8000 : pyDiv (1 / 2 : ℚ) lit₀₂ = 25 := by
  unfold pyDiv
  rw [lit₀₂_val,
    show (1 / 2 : ℚ) / (5764607523034235 / 288230376151711744) =
      144115188075855872 / 5764607523034235 by norm_num]
  exact floatRound_eval 144115188075855872 5764607523034235 4 7036874417766400 (by norm_num) (by norm_num) (by norm_num)
    (by rw [show bitLen 300 144115188075855872 = 58 from by decide,
            show bitLen 300 5764607523034235 = 53 from by decide]
        norm_num)
    (roundNE_eq_of_gt 7036874417766399 (by norm_num) (by norm_num) (by norm_num))
    (by norm_num)

theorem pyDivA_16000 : pyDiv (16000 : ℚ) 16000 = 1 := by
  unfold pyDiv
  rw [show (16000 : ℚ) / 16000 = 1 by norm_num]
  exact floatRound_eval 1 1 0 4503599627370496 (by norm_num) (by norm_num) (by norm_num)
    (by rw [show bitLen 300 1 = 1 from by decide]
        norm_num)
    (roundNE_eq_of_lt 4503599627370496 (by norm_num) (by norm_num))
    (by norm_num)

theorem pyDivB_16000 : pyDiv (1 : ℚ) lit₀₂ = 50 := by
  unfold pyDiv
  rw [lit₀₂_val,
    show (1 : ℚ) / (5764607523034235 / 288230376151711744) =
      288230376151711744 / 5764607523034235 by norm_num]
  exact floatRound_eval 288230376151711744 5764607523034235 5 7036874417766400 (by norm_num) (by norm_num) (by norm_num)
    (by rw [show bitLen 300 288230376151711744 = 59 from by decide,
            show bitLen 300 5764607523034235 = 53 from by decide]
        norm_num)
    (roundNE_eq_of_gt 7036874417766399 (by norm_num) (by norm_num) (by norm_num))
    (by norm_num)

/-- Evaluate a ceiling via the floor of the negation. -/
theorem ceil_eval {x : ℚ} {n : ℤ} (h : ⌊-x⌋ = -n) : ⌈x⌉ = n := by
  have h2 : ⌈x⌉ = -⌊-x⌋ := by rw [Int.floor_neg, neg_neg]
  rw [h2, h, neg_neg]

theorem start_index_0 : start_index 0 = 0 := by
  unfold start_index
  rw [show ((0 : ℕ) : ℚ) = 0 by norm_num,
    show pyDiv (0 : ℚ) 16000 = 0 by
      unfold pyDiv; rw [zero_div]; exact floatRound_nonpos le_rfl,
    show pyDiv (0 : ℚ) lit₀₂ = 0 by
      unfold pyDiv; rw [zero_div]; exact floatRound_nonpos le_rfl]
  norm_num

theorem start_index_100 : start_index 100 = 0 := by
  unfold start_index
  rw [show ((100 : ℕ) : ℚ) = 100 by norm_num, pyDivA_100, pyDivB_100]
  norm_num

theorem stop_index_100 : stop_index 100 = 1 := by
  unfold stop_index
  rw [show ((100 : ℕ) : ℚ) = 100 by norm_num, pyDivA_100, pyDivB_100]
  exact ceil_eval (by norm_num)

theorem start_index_400 : start_index 400 = 1 := by
  unfold start_index
  rw [show ((400 : ℕ) : ℚ) = 400 by norm_num, pyDivA_400, pyDivB_400]
  norm_num

theorem stop_index_400 : stop_index 400 = 2 := by
  unfold stop_index
  rw [show ((400 : ℕ) : ℚ) = 400 by norm_num, pyDivA_400, pyDivB_400]
  exact ceil_eval (by norm_num)

theorem stop_index_700 : stop_index 700 = 3 := by
  unfold stop_index
  rw [show ((700 : ℕ) : ℚ) = 700 by norm_num, pyDivA_700, pyDivB_700]
  exact ceil_eval (by norm_num)

theorem start_index_8000 : start_index 8000 = 25 := by
  unfold start_index
  rw [show ((8000 : ℕ) : ℚ) = 8000 by norm_num, pyDivA_8000, pyDivB_8000]
  norm_num

theorem stop_index_8000 : stop_index 8000 = 25 := by
  unfold stop_index
  rw [show ((8000 : ℕ) : ℚ) = 8000 by norm_num, pyDivA_8000, pyDivB_8000]
  exact ceil_eval (by norm_num)

theorem stop_index_16000 : stop_index 16000 = 50 := by
  unfold stop_index
  rw [show ((16000 : ℕ) : ℚ) = 16000 by norm_num, pyDivA_16000, pyDivB_16000]
  exact ceil_eval (by norm_num)

/-! ## Helper lemmas: ranges and the aligner -/

theorem mem_pyRange {a b i : ℤ} : i ∈ pyRange a b ↔ a ≤ i ∧ i < b := by
  unfold pyRange
  simp only [List.mem_map, List.mem_range]
  constructor
  · rintro ⟨n, hn, rfl⟩
    refine ⟨by simp, ?_⟩
    have hn2 : (n : ℤ) < b - a := Int.lt_toNat.mp hn
    linarith
  · rintro ⟨h1, h2⟩
    refine ⟨(i - a).toNat, ?_, ?_⟩
    · rw [Int.toNat_lt_toNat (by linarith)]
      linarith
    · rw [Int.toNat_of_nonneg (by linarith)]
      ring

theorem length_pyRange (a b : ℤ) : (pyRange a b).length = (b - a).toNat := by
  unfold pyRange
  rw [List.length_map, List.length_range]

theorem pyDiv_nonneg (x y : ℚ) : 0 ≤ pyDiv x y := by
  unfold pyDiv
  exact floatRound_nonneg _

theorem start_index_nonneg (s : ℕ) : 0 ≤ start_index s := by
  unfold start_index
  exact Int.floor_nonneg.mpr (pyDiv_nonneg _ _)

theorem segmentIndices_nonneg {seg : Segment} {i : ℤ} (h : i ∈ segmentIndices seg) : 0 ≤ i := by
  unfold segmentIndices at h
  exact le_trans (start_index_nonneg _) (mem_pyRange.mp h).1

/-- The folded `phoneme_indeces` dict is, for each label, the
concatenation of the index ranges of the segments carrying that label,
in segment order. -/
theorem phoneme_indeces_eq (segs : List Segment) (l : String) :
    phoneme_indeces segs l =
      (segs.filter (fun s => s.label = l)).flatMap segmentIndices := by
  suffices h : ∀ (segs : List Segment) (acc : String → List ℤ) (l : String),
      (segs.foldl
        (fun acc seg => fun l' => if l' = seg.label then acc l' ++ segmentIndices seg else acc l')
        acc) l
      = acc l ++ (segs.filter (fun s => s.label = l)).flatMap segmentIndices by
    unfold phoneme_indeces
    rw [h]
    exact List.nil_append _
  intro segs
  induction segs with
  | nil => intro acc l; simp
  | cons seg rest ih =>
    intro acc l
    simp only [List.foldl_cons, List.filter_cons]
    rw [ih]
    by_cases hl : l = seg.label
    · rw [if_pos hl]
      have hd : decide (seg.label = l) = true := by simp [hl]
      rw [hd]
      simp [List.append_assoc]
    · rw [if_neg hl]
      have hd : decide (seg.label = l) = false := by
        simp only [decide_eq_false_iff_not]
        exact fun h => hl h.symm
      simp [hd]

theorem phoneme_indeces_nonneg {segs : List Segment} {l : String} {i : ℤ}
    (h : i ∈ phoneme_indeces segs l) : 0 ≤ i := by
  rw [phoneme_indeces_eq] at h
  obtain ⟨seg, _, hi⟩ := List.mem_flatMap.mp h
  exact segmentIndices_nonneg hi

theorem indexLookup_append (wf : List α) (xs ys : List ℤ) :
    indexLookup wf (xs ++ ys) = indexLookup wf xs ++ indexLookup wf ys := by
  unfold indexLookup
  exact List.filterMap_append xs ys _

theorem lookupIdx_inrange {wf : List α} {i : ℤ} (hlt : i.toNat < wf.length)
    (h : i < (wf.length : ℤ)) : lookupIdx wf i = some (wf.get ⟨i.toNat, hlt⟩) := by
  unfold lookupIdx
  rw [if_pos h, List.get?_eq_get hlt]

theorem lookupIdx_oob {wf : List α} {i : ℤ} (h : ¬ i < (wf.length : ℤ)) :
    lookupIdx wf i = none := by
  unfold lookupIdx
  rw [if_neg h]

/-- Every nonnegative in-range index contributes exactly one vector and
every out-of-range index contributes none. -/
theorem indexLookup_length (wf : List α) (xs : List ℤ) (hx : ∀ i ∈ xs, 0 ≤ i) :
    (indexLookup wf xs).length = xs.countP (fun i => decide (i < (wf.length : ℤ))) := by
  induction xs with
  | nil => rfl
  | cons i rest ih =>
    have hi : 0 ≤ i := hx i (List.mem_cons_self i rest)
    have ih2 := ih (fun j hj => hx j (List.mem_cons_of_mem i hj))
    unfold indexLookup at ih2 ⊢
    by_cases h : i < (wf.length : ℤ)
    · have hlt : i.toNat < wf.length := by omega
      rw [List.filterMap_cons_some (lookupIdx_inrange hlt h), List.length_cons, ih2,
        List.countP_cons]
      simp [h]
    · rw [List.filterMap_cons_none (lookupIdx_oob h), ih2, List.countP_cons]
      simp [h]

theorem indexLookup_mem {wf : List α} {xs : List ℤ} {i : ℤ} (hmem : i ∈ xs)
    (hlt : i.toNat < wf.length) (hnn : 0 ≤ i) : wf.get ⟨i.toNat, hlt⟩ ∈ indexLookup wf xs := by
  unfold indexLookup
  exact List.mem_filterMap.mpr ⟨i, hmem, lookupIdx_inrange hlt (by omega)⟩

/-- Discarding the out-of-range indices first does not change the
result: they are silently dropped, not errors. -/
theorem indexLookup_drop_oob (wf : List α) (xs : List ℤ) :
    indexLookup wf xs = indexLookup wf (xs.filter (fun i => i < (wf.length : ℤ))) := by
  induction xs with
  | nil => rfl
  | cons i rest ih =>
    unfold indexLookup at ih ⊢
    by_cases h : i < (wf.length : ℤ)
    · have hd : decide (i < (wf.length : ℤ)) = true := by simp [h]
      rw [List.filter_cons, hd, if_pos rfl]
      rcases hw : lookupIdx wf i with _ | v
      · rw [List.filterMap_cons_none hw, List.filterMap_cons_none hw]
        exact ih
      · rw [List.filterMap_cons_some hw, List.filterMap_cons_some hw, ih]
    · have hd : decide (i < (wf.length : ℤ)) = false := by simp [h]
      rw [List.filter_cons, hd]
      simp only [Bool.false_eq_true, if_false]
      rw [List.filterMap_cons_none (lookupIdx_oob h)]
      exact ih

theorem countP_flatMap (l : List α) (f : α → List β) (p : β → Bool) :
    (l.flatMap f).countP p = (l.map (fun x => (f x).countP p)).sum := by
  induction l with
  | nil => rfl
  | cons x rest ih =>
    rw [List.flatMap_cons, List.countP_append, List.map_cons, List.sum_cons, ih]

/-! ## Claims about the phoneme aligner -/

/-- C1: For every phoneme segment (start, stop, label) of an utterance,
the aligner attributes to that label exactly the frame indices in the
half-open interval `[floor(start / 16000 / 0.020),
ceil(stop / 16000 / 0.020))` — an index is attributed to a label iff
some segment of that label spans it; and for a segment spanning samples
`[0, 16000)` at 16 kHz with 20 ms frames, `start_index 0 = 0` and
`stop_index 16000 = 50`. -/
theorem aligner_interval_attribution :
    (∀ (segs : List Segment) (l : String) (i : ℤ),
        i ∈ phoneme_indeces segs l ↔
          ∃ seg ∈ segs, seg.label = l ∧ start_index seg.start ≤ i ∧ i < stop_index seg.stop)
    ∧ start_index 0 = 0 ∧ stop_index 16000 = 50 := by
  refine ⟨?_, start_index_0, stop_index_16000⟩
  intro segs l i
  rw [phoneme_indeces_eq, List.mem_flatMap]
  constructor
  · rintro ⟨seg, hseg, hi⟩
    have hm := List.mem_filter.mp hseg
    refine ⟨seg, hm.1, by simpa using hm.2, ?_⟩
    unfold segmentIndices at hi
    exact mem_pyRange.mp hi
  · rintro ⟨seg, hseg, hl, h1, h2⟩
    refine ⟨seg, List.mem_filter.mpr ⟨hseg, by simp [hl]⟩, ?_⟩
    unfold segmentIndices
    exact mem_pyRange.mpr ⟨h1, h2⟩

/-- C3: Computed frame indices at or beyond the actual frame count are
silently discarded: filtering them away first changes nothing (and the
lookup is a total function — no error is raised), and exactly the
indices strictly below the frame-list length contribute vectors, one
vector each. -/
theorem aligner_discards_oob_indices :
    ∀ (wf : List α) (segs : List Segment) (l : String),
      sort_states_per_phoneme segs wf l =
        indexLookup wf ((phoneme_indeces segs l).filter (fun i => i < (wf.length : ℤ)))
      ∧ (sort_states_per_phoneme segs wf l).length =
          (phoneme_indeces segs l).countP (fun i => decide (i < (wf.length : ℤ))) := by
  intro wf segs l
  unfold sort_states_per_phoneme
  exact ⟨indexLookup_drop_oob wf _,
    indexLookup_length wf _ (fun i hi => phoneme_indeces_nonneg hi)⟩

/-- C5 counterexample: the claim says a segment with `start == stop`
contributes zero frames, but a segment with `start = stop = 100`
contributes one frame (`floor(100/16000/0.020) = 0`,
`ceil(100/16000/0.020) = 1`). -/
theorem start_eq_stop_counterexample :
    sort_states_per_phoneme [⟨100, 100, "ax"⟩] [(42 : ℕ)] "ax" = [42]
    ∧ (sort_states_per_phoneme [⟨100, 100, "ax"⟩] [(42 : ℕ)] "ax").length ≠ 0 := by
  have hseg : segmentIndices ⟨100, 100, "ax"⟩ = [0] := by
    unfold segmentIndices
    rw [start_index_100, stop_index_100]
    decide
  have hidx : phoneme_indeces [⟨100, 100, "ax"⟩] "ax" = [0] := by
    rw [phoneme_indeces_eq,
      show ([⟨100, 100, "ax"⟩] : List Segment).filter (fun s => s.label = "ax")
          = [⟨100, 100, "ax"⟩] from by decide,
      List.flatMap_cons, hseg]
    rfl
  have h : sort_states_per_phoneme [⟨100, 100, "ax"⟩] [(42 : ℕ)] "ax" = [42] := by
    unfold sort_states_per_phoneme
    rw [hidx]
    decide
  exact ⟨h, by rw [h]; decide⟩

/-- C5 amended: for a segment with `start == stop` the aligner does not
crash (it is a total function) and attributes at most one frame: zero
when the float-computed frame value lands exactly on a frame boundary
(e.g. `start = stop = 8000`), one otherwise (e.g. `start = stop =
100`). -/
theorem start_eq_stop_amended :
    (∀ (s : ℕ) (l : String) (wf : List α),
        (sort_states_per_phoneme [⟨s, s, l⟩] wf l).length ≤ 1)
    ∧ segmentIndices ⟨8000, 8000, "aa"⟩ = []
    ∧ (segmentIndices ⟨100, 100, "ax"⟩).length = 1 := by
  refine ⟨?_, ?_, ?_⟩
  · intro s l wf
    have hidx : phoneme_indeces [⟨s, s, l⟩] l = segmentIndices ⟨s, s, l⟩ := by
      rw [phoneme_indeces_eq,
        show ([⟨s, s, l⟩] : List Segment).filter (fun seg => seg.label = l)
            = [⟨s, s, l⟩] from by simp,
        List.flatMap_cons, List.flatMap_nil, List.append_nil]
    have hlen : (segmentIndices ⟨s, s, l⟩).length ≤ 1 := by
      unfold segmentIndices
      rw [length_pyRange]
      have := Int.ceil_le_floor_add_one (pyDiv (pyDiv (s : ℚ) 16000) lit₀₂)
      unfold start_index stop_index
      dsimp only
      omega
    unfold sort_states_per_phoneme
    calc (indexLookup wf (phoneme_indeces [⟨s, s, l⟩] l)).length
        ≤ (phoneme_indeces [⟨s, s, l⟩] l).length := by
          unfold indexLookup
          exact List.length_filterMap_le _ _
      _ ≤ 1 := by rw [hidx]; exact hlen
  · unfold segmentIndices
    rw [start_index_8000, stop_index_8000]
    decide
  · unfold segmentIndices
    rw [start_index_100, stop_index_100]
    decide

/-- C7: when segments claim overlapping frame ranges, each claiming
label receives the frame vector (the vector appears under every
claiming label), and vectors are never deduplicated: the number of
vectors attributed to a label is the sum, over all segments carrying
that label, of their individual in-range index counts. -/
theorem aligner_overlap_no_dedup :
    (∀ (wf : List α) (segs : List Segment) (seg : Segment), seg ∈ segs →
        ∀ i : ℤ, start_index seg.start ≤ i → i < stop_index seg.stop →
        ∀ hlt : i.toNat < wf.length,
          wf.get ⟨i.toNat, hlt⟩ ∈ sort_states_per_phoneme segs wf seg.label)
    ∧ (∀ (wf : List α) (segs : List Segment) (l : String),
        (sort_states_per_phoneme segs wf l).length =
          ((segs.filter (fun s => s.label = l)).map
            (fun seg => (segmentIndices seg).countP (fun i => decide (i < (wf.length : ℤ))))).sum) := by
  constructor
  · intro wf segs seg hseg i h1 h2 hlt
    have hnn : 0 ≤ i := le_trans (start_index_nonneg _) h1
    unfold sort_states_per_phoneme
    apply indexLookup_mem _ hlt hnn
    rw [phoneme_indeces_eq, List.mem_flatMap]
    refine ⟨seg, List.mem_filter.mpr ⟨hseg, by simp⟩, ?_⟩
    unfold segmentIndices
    exact mem_pyRange.mpr ⟨h1, h2⟩
  · intro wf segs l
    unfold sort_states_per_phoneme
    rw [indexLookup_length wf _ (fun i hi => phoneme_indeces_nonneg hi), phoneme_indeces_eq,
      countP_flatMap]

/-- C7 witness: segments `(0, 400, "aa")` and `(400, 700, "iy")` both
claim frame 1 (ranges `[0, 2)` and `[1, 3)`), so the vector of frame 1
appears under both labels. -/
theorem aligner_overlap_no_dedup_witness :
    (11 : ℕ) ∈ sort_states_per_phoneme [⟨0, 400, "aa"⟩, ⟨400, 700, "iy"⟩] [10, 11, 12] "aa"
    ∧ (11 : ℕ) ∈ sort_states_per_phoneme [⟨0, 400, "aa"⟩, ⟨400, 700, "iy"⟩] [10, 11, 12] "iy" := by
  constructor
  · have h := aligner_overlap_no_dedup.1 [10, 11, 12]
      [⟨0, 400, "aa"⟩, ⟨400, 700, "iy"⟩] ⟨0, 400, "aa"⟩ (by decide) 1
      (by rw [start_index_0]; norm_num) (by rw [stop_index_400]; norm_num) (by decide)
    simpa using h
  · have h := aligner_overlap_no_dedup.1 [10, 11, 12]
      [⟨0, 400, "aa"⟩, ⟨400, 700, "iy"⟩] ⟨400, 700, "iy"⟩ (by decide) 1
      (by rw [start_index_400]) (by rw [stop_index_700]; norm_num) (by decide)
    simpa using h

/-! ## Helper lemmas: the class balancer -/


theorem counterKeys_aux_mem (y : List String) :
    ∀ (acc : List String) (a : String),
      a ∈ y.foldl (fun ks l => if l ∈ ks then ks else ks ++ [l]) acc ↔ a ∈ acc ∨ a ∈ y := by
  induction y with
  | nil => intro acc a; simp
  | cons b rest ih =>
    intro acc a
    rw [List.foldl_cons]
    by_cases hb : b ∈ acc
    · rw [if_pos hb, ih]
      constructor
      · rintro (h | h)
        · exact Or.inl h
        · exact Or.inr (List.mem_cons_of_mem b h)
      · rintro (h | h)
        · exact Or.inl h
        · rcases List.mem_cons.mp h with rfl | h2
          · exact Or.inl hb
          · exact Or.inr h2
    · rw [if_neg hb, ih]
      simp only [List.mem_append, List.mem_singleton, List.mem_cons]
      tauto

theorem counterKeys_mem {y : List String} {a : String} : a ∈ counterKeys y ↔ a ∈ y := by
  unfold counterKeys
  rw [counterKeys_aux_mem]
  simp

theorem counterKeys_aux_nodup (y : List String) :
    ∀ acc : List String, acc.Nodup →
      (y.foldl (fun ks l => if l ∈ ks then ks else ks ++ [l]) acc).Nodup := by
  induction y with
  | nil => intro acc h; exact h
  | cons b rest ih =>
    intro acc h
    rw [List.foldl_cons]
    by_cases hb : b ∈ acc
    · rw [if_pos hb]; exact ih acc h
    · rw [if_neg hb]
      refine ih _ ?_
      rw [List.nodup_append]
      refine ⟨h, List.nodup_singleton b, ?_⟩
      intro x hx hx2
      rw [List.mem_singleton] at hx2
      subst hx2
      exact hb hx

theorem counterKeys_nodup (y : List String) : (counterKeys y).Nodup :=
  counterKeys_aux_nodup y [] List.nodup_nil

theorem counterKeys_ne_nil {y : List String} (h : y ≠ []) : counterKeys y ≠ [] := by
  intro hk
  rcases y with _ | ⟨b, rest⟩
  · exact h rfl
  · have : b ∈ counterKeys (b :: rest) := counterKeys_mem.mpr (List.mem_cons_self b rest)
    rw [hk] at this
    exact List.not_mem_nil b this

theorem count_pos_of_mem_counterKeys {y : List String} {k : String} (h : k ∈ counterKeys y) :
    1 ≤ y.count k :=
  List.count_pos_iff.mpr (counterKeys_mem.mp h)

theorem foldl_min_le_init (cnt : String → ℕ) :
    ∀ (ks : List String) (a : ℕ), ks.foldl (fun a l => Nat.min a (cnt l)) a ≤ a := by
  intro ks
  induction ks with
  | nil => intro a; exact le_refl a
  | cons b rest ih =>
    intro a
    rw [List.foldl_cons]
    exact le_trans (ih _) (Nat.min_le_left _ _)

theorem foldl_min_le_elem (cnt : String → ℕ) :
    ∀ (ks : List String) (a : ℕ) (k : String), k ∈ ks →
      ks.foldl (fun a l => Nat.min a (cnt l)) a ≤ cnt k := by
  intro ks
  induction ks with
  | nil => intro a k h; exact absurd h (List.not_mem_nil k)
  | cons b rest ih =>
    intro a k h
    rw [List.foldl_cons]
    rcases List.mem_cons.mp h with rfl | h2
    · exact le_trans (foldl_min_le_init cnt rest _) (Nat.min_le_right _ _)
    · exact ih _ k h2

theorem le_foldl_min (cnt : String → ℕ) :
    ∀ (ks : List String) (a c : ℕ), c ≤ a → (∀ k ∈ ks, c ≤ cnt k) →
      c ≤ ks.foldl (fun a l => Nat.min a (cnt l)) a := by
  intro ks
  induction ks with
  | nil => intro a c h _; exact h
  | cons b rest ih =>
    intro a c h hall
    rw [List.foldl_cons]
    exact ih _ c (le_min h (hall b (List.mem_cons_self b rest)))
      (fun k hk => hall k (List.mem_cons_of_mem b hk))

theorem num_le_count {y : List String} {k : String} (h : k ∈ counterKeys y) :
    num_instances_per_class y ≤ y.count k := by
  unfold num_instances_per_class
  rcases hk : counterKeys y with _ | ⟨k₀, ks⟩
  · rw [hk] at h; exact absurd h (List.not_mem_nil k)
  · rw [hk] at h
    rcases List.mem_cons.mp h with rfl | h2
    · exact foldl_min_le_init _ ks _
    · exact foldl_min_le_elem _ ks _ k h2

theorem num_pos {y : List String} (h : y ≠ []) : 1 ≤ num_instances_per_class y := by
  unfold num_instances_per_class
  rcases hk : counterKeys y with _ | ⟨k₀, ks⟩
  · exact absurd hk (counterKeys_ne_nil h)
  · refine le_foldl_min _ ks _ 1 ?_ ?_
    · exact count_pos_of_mem_counterKeys (hk ▸ List.mem_cons_self k₀ ks)
    · intro k hkk
      exact count_pos_of_mem_counterKeys (hk ▸ List.mem_cons_of_mem k₀ hkk)

theorem zip_filter_count (k : String) :
    ∀ (X : List α) (y : List String), X.length = y.length →
      ((X.zip y).filter (fun p => p.2 = k)).length = y.count k := by
  intro X
  induction X with
  | nil =>
    intro y h
    have : y = [] := List.length_eq_zero.mp h.symm
    subst this
    rfl
  | cons x xs ih =>
    intro y h
    rcases y with _ | ⟨b, rest⟩
    · simp at h
    · have hlen : xs.length = rest.length := by simpa using h
      rw [List.zip_cons_cons, List.filter_cons, List.count_cons]
      by_cases hb : b = k
      · have h1 : decide ((x, b).2 = k) = true := by simpa using hb
        have h2 : (b == k) = true := by simpa using hb
        simp [h1, h2, ih rest hlen]
      · have h1 : decide ((x, b).2 = k) = false := by simpa using hb
        have h2 : (b == k) = false := by simpa using hb
        simp [h1, h2, ih rest hlen]



theorem collect_label_eq_take {pairs : List (α × String)} {k : String} {m : ℕ}
    (h1 : m ≤ (pairs.filter (fun p => p.2 = k)).length) (h2 : 1 ≤ m) :
    collect_label pairs k m = (pairs.filter (fun p => p.2 = k)).take m := by
  unfold collect_label
  rw [if_pos ⟨h1, h2⟩]

theorem collect_label_length {pairs : List (α × String)} {k : String} {m : ℕ}
    (h1 : m ≤ (pairs.filter (fun p => p.2 = k)).length) (h2 : 1 ≤ m) :
    (collect_label pairs k m).length = m := by
  rw [collect_label_eq_take h1 h2, List.length_take]
  omega

theorem collect_label_uniform {pairs : List (α × String)} {k : String} {m : ℕ} :
    ∀ p ∈ collect_label pairs k m, p.2 = k := by
  intro p hp
  unfold collect_label at hp
  split at hp
  · have := List.take_subset m _ hp
    have := (List.mem_filter.mp this).2
    simpa using this
  · exact absurd hp (List.not_mem_nil p)

theorem map_snd_count_of_uniform {lst : List (α × String)} {k : String}
    (h : ∀ p ∈ lst, p.2 = k) : (lst.map Prod.snd).count k = lst.length := by
  rw [List.count_eq_length.mpr, List.length_map]
  intro b hb
  obtain ⟨p, hp, rfl⟩ := List.mem_map.mp hb
  exact (h p hp).symm

theorem map_snd_count_of_uniform_ne {lst : List (α × String)} {k k' : String}
    (h : ∀ p ∈ lst, p.2 = k) (hne : k' ≠ k) : (lst.map Prod.snd).count k' = 0 := by
  rw [List.count_eq_zero]
  intro hmem
  obtain ⟨p, hp, hps⟩ := List.mem_map.mp hmem
  exact hne (hps ▸ h p hp)

theorem flatMap_congr {l : List α} {f g : α → List β} (h : ∀ a ∈ l, f a = g a) :
    l.flatMap f = l.flatMap g := by
  induction l with
  | nil => rfl
  | cons a rest ih =>
    rw [List.flatMap_cons, List.flatMap_cons, h a (List.mem_cons_self a rest),
      ih (fun b hb => h b (List.mem_cons_of_mem a hb))]

/-- Count of a key in the concatenated label blocks: only the block of
that key contributes, and it contributes its full length. -/
theorem count_flat_blocks {keys : List String} {f : String → List (α × String)} {k : String}
    (hnd : keys.Nodup) (hk : k ∈ keys)
    (hun : ∀ k' ∈ keys, ∀ p ∈ f k', p.2 = k') :
    ((keys.flatMap f).map Prod.snd).count k = (f k).length := by
  induction keys with
  | nil => exact absurd hk (List.not_mem_nil k)
  | cons b rest ih =>
    rw [List.flatMap_cons, List.map_append, List.count_append]
    have hb := hun b (List.mem_cons_self b rest)
    rcases List.mem_cons.mp hk with rfl | h2
    · have hrest : ((rest.flatMap f).map Prod.snd).count k = 0 := by
        rw [List.count_eq_zero]
        intro hmem
        rw [List.map_flatMap] at hmem
        obtain ⟨k', hk', hmem2⟩ := List.mem_flatMap.mp hmem
        obtain ⟨p, hp, hps⟩ := List.mem_map.mp hmem2
        have : k = k' := hps ▸ hun k' (List.mem_cons_of_mem _ hk') p hp
        exact (List.nodup_cons.mp hnd).1 (this ▸ hk')
      rw [hrest, map_snd_count_of_uniform hb]
      omega
    · have hne : k ≠ b := by
        rintro rfl
        exact (List.nodup_cons.mp hnd).1 h2
      rw [map_snd_count_of_uniform_ne hb hne,
        ih (List.nodup_cons.mp hnd).2 h2 (fun k' hk' => hun k' (List.mem_cons_of_mem _ hk'))]
      omega

/-- Filtering the concatenated blocks by a key recovers that block. -/
theorem filter_flat_blocks {keys : List String} {f : String → List (α × String)} {k : String}
    (hnd : keys.Nodup) (hk : k ∈ keys)
    (hun : ∀ k' ∈ keys, ∀ p ∈ f k', p.2 = k') :
    (keys.flatMap f).filter (fun p => p.2 = k) = f k := by
  induction keys with
  | nil => exact absurd hk (List.not_mem_nil k)
  | cons b rest ih =>
    rw [List.flatMap_cons, List.filter_append]
    have hb := hun b (List.mem_cons_self b rest)
    rcases List.mem_cons.mp hk with rfl | h2
    · have hself : (f k).filter (fun p => p.2 = k) = f k := by
        apply List.filter_eq_self.mpr
        intro p hp
        simpa using hb p hp
      have hrest : (rest.flatMap f).filter (fun p => p.2 = k) = [] := by
        apply List.filter_eq_nil_iff.mpr
        intro p hp
        obtain ⟨k', hk', hp2⟩ := List.mem_flatMap.mp hp
        have : p.2 = k' := hun k' (List.mem_cons_of_mem _ hk') p hp2
        simp only [decide_eq_true_eq, this]
        rintro rfl
        exact (List.nodup_cons.mp hnd).1 hk'
      rw [hself, hrest, List.append_nil]
    · have hbf : (f b).filter (fun p => p.2 = k) = [] := by
        apply List.filter_eq_nil_iff.mpr
        intro p hp
        have : p.2 = b := hb p hp
        simp only [decide_eq_true_eq, this]
        rintro rfl
        exact (List.nodup_cons.mp hnd).1 h2
      rw [hbf, List.nil_append,
        ih (List.nodup_cons.mp hnd).2 h2 (fun k' hk' => hun k' (List.mem_cons_of_mem _ hk'))]



theorem ck_aux_absorb :
    ∀ (lst acc : List String), (∀ x ∈ lst, x ∈ acc) →
      lst.foldl (fun ks l => if l ∈ ks then ks else ks ++ [l]) acc = acc := by
  intro lst
  induction lst with
  | nil => intro acc _; rfl
  | cons b rest ih =>
    intro acc h
    rw [List.foldl_cons, if_pos (h b (List.mem_cons_self b rest))]
    exact ih acc (fun x hx => h x (List.mem_cons_of_mem b hx))

theorem ck_aux_uniform :
    ∀ (lst : List String) (acc : List String) (b : String),
      (∀ x ∈ lst, x = b) → lst ≠ [] → b ∉ acc →
      lst.foldl (fun ks l => if l ∈ ks then ks else ks ++ [l]) acc = acc ++ [b] := by
  intro lst acc b hun hne hnotin
  rcases lst with _ | ⟨x, rest⟩
  · exact absurd rfl hne
  · have hx : x = b := hun x (List.mem_cons_self x rest)
    subst hx
    rw [List.foldl_cons, if_neg hnotin]
    apply ck_aux_absorb
    intro z hz
    rw [hun z (List.mem_cons_of_mem x hz)]
    exact List.mem_append_right acc (List.mem_singleton_self x)

theorem ck_aux_blocks {f : String → List (α × String)} :
    ∀ (keys : List String) (acc : List String), keys.Nodup →
      (∀ k ∈ keys, k ∉ acc) →
      (∀ k ∈ keys, f k ≠ []) →
      (∀ k ∈ keys, ∀ p ∈ f k, p.2 = k) →
      ((keys.flatMap f).map Prod.snd).foldl
        (fun ks l => if l ∈ ks then ks else ks ++ [l]) acc = acc ++ keys := by
  intro keys
  induction keys with
  | nil => intro acc _ _ _ _; simp
  | cons b rest ih =>
    intro acc hnd hdisj hpos hun
    rw [List.flatMap_cons, List.map_append, List.foldl_append]
    have hb : ((f b).map Prod.snd).foldl
        (fun ks l => if l ∈ ks then ks else ks ++ [l]) acc = acc ++ [b] := by
      apply ck_aux_uniform
      · intro x hx
        obtain ⟨p, hp, rfl⟩ := List.mem_map.mp hx
        exact hun b (List.mem_cons_self b rest) p hp
      · intro hemp
        exact hpos b (List.mem_cons_self b rest) (List.map_eq_nil_iff.mp hemp)
      · exact hdisj b (List.mem_cons_self b rest)
    rw [hb, ih (acc ++ [b]) (List.nodup_cons.mp hnd).2 ?_ ?_ ?_]
    · rw [List.append_assoc, List.singleton_append]
    · intro k hk
      rw [List.mem_append, List.mem_singleton]
      rintro (h | rfl)
      · exact hdisj k (List.mem_cons_of_mem b hk) h
      · exact (List.nodup_cons.mp hnd).1 hk
    · intro k hk
      exact hpos k (List.mem_cons_of_mem b hk)
    · intro k hk
      exact hun k (List.mem_cons_of_mem b hk)

theorem counterKeys_flat_blocks {keys : List String} {f : String → List (α × String)}
    (hnd : keys.Nodup) (hpos : ∀ k ∈ keys, f k ≠ [])
    (hun : ∀ k ∈ keys, ∀ p ∈ f k, p.2 = k) :
    counterKeys ((keys.flatMap f).map Prod.snd) = keys := by
  unfold counterKeys
  rw [ck_aux_blocks keys [] hnd (fun k _ => List.not_mem_nil k) hpos hun, List.nil_append]

theorem foldl_min_const (cnt : String → ℕ) :
    ∀ (ks : List String) (a : ℕ), (∀ k ∈ ks, cnt k = a) →
      ks.foldl (fun x l => Nat.min x (cnt l)) a = a := by
  intro ks
  induction ks with
  | nil => intro a _; rfl
  | cons b rest ih =>
    intro a h
    have hmin : Nat.min a a = a := by simp [Nat.min_def]
    rw [List.foldl_cons, h b (List.mem_cons_self b rest), hmin]
    exact ih a (fun k hk => h k (List.mem_cons_of_mem b hk))

theorem zip_unzip_flat (flat : List (α × String)) :
    (flat.map Prod.fst).zip (flat.map Prod.snd) = flat := by
  rw [List.zip_map']
  calc flat.map (fun a => (a.1, a.2)) = flat.map id := by
        apply List.map_congr_left
        intro a _
        rfl
    _ = flat := List.map_id flat

/-- `balance_classes` on data that is already grouped into uniform
label blocks of equal positive size is the identity. -/
theorem balance_of_grouped (keys : List String) (f : String → List (α × String)) (m : ℕ)
    (hnd : keys.Nodup) (hne : keys ≠ []) (hm : 1 ≤ m)
    (hlenb : ∀ k ∈ keys, (f k).length = m)
    (hun : ∀ k ∈ keys, ∀ p ∈ f k, p.2 = k) :
    balance_classes ((keys.flatMap f).map Prod.fst) ((keys.flatMap f).map Prod.snd)
      = some ((keys.flatMap f).map Prod.fst, (keys.flatMap f).map Prod.snd) := by
  rcases keys with _ | ⟨k₀, ks⟩
  · exact absurd rfl hne
  have hpos : ∀ k ∈ k₀ :: ks, f k ≠ [] := by
    intro k hk hemp
    have := hlenb k hk
    rw [hemp] at this
    simp at this
    omega
  have hkeys : counterKeys (((k₀ :: ks).flatMap f).map Prod.snd) = k₀ :: ks :=
    counterKeys_flat_blocks hnd hpos hun
  have hcnt : ∀ k ∈ k₀ :: ks, (((k₀ :: ks).flatMap f).map Prod.snd).count k = m := by
    intro k hk
    rw [count_flat_blocks hnd hk hun, hlenb k hk]
  have hnum : num_instances_per_class (((k₀ :: ks).flatMap f).map Prod.snd) = m := by
    unfold num_instances_per_class
    rw [hkeys]
    dsimp only
    rw [hcnt k₀ (List.mem_cons_self k₀ ks)]
    exact foldl_min_const _ ks m (fun k hk => hcnt k (List.mem_cons_of_mem k₀ hk))
  have hcoll : ∀ k ∈ k₀ :: ks,
      collect_label
        ((((k₀ :: ks).flatMap f).map Prod.fst).zip (((k₀ :: ks).flatMap f).map Prod.snd)) k
        (num_instances_per_class (((k₀ :: ks).flatMap f).map Prod.snd)) = f k := by
    intro k hk
    rw [zip_unzip_flat, hnum]
    unfold collect_label
    rw [filter_flat_blocks hnd hk hun]
    rw [if_pos ⟨le_of_eq (hlenb k hk).symm, hm⟩]
    rw [← hlenb k hk, List.take_length]
  unfold balance_classes
  rw [hkeys]
  dsimp only
  rw [flatMap_congr hcoll]



/-- The output of `balance_classes`: for each first-occurrence-ordered
key, the first `num_instances_per_class` matching pairs of the zipped
input, in input order (under equal input lengths the break always
fires). -/
theorem balance_classes_eq (X : List α) (y : List String)
    (hlen : X.length = y.length) (hne : y ≠ []) :
    balance_classes X y = some
      (((counterKeys y).flatMap
          (fun k => ((X.zip y).filter (fun p => p.2 = k)).take (num_instances_per_class y))).map
        Prod.fst,
       ((counterKeys y).flatMap
          (fun k => ((X.zip y).filter (fun p => p.2 = k)).take (num_instances_per_class y))).map
        Prod.snd) := by
  have hcoll : ∀ k ∈ counterKeys y,
      collect_label (X.zip y) k (num_instances_per_class y)
        = ((X.zip y).filter (fun p => p.2 = k)).take (num_instances_per_class y) := by
    intro k hkk
    refine collect_label_eq_take ?_ (num_pos hne)
    rw [zip_filter_count k X y hlen]
    exact num_le_count hkk
  rcases hk : counterKeys y with _ | ⟨k₀, ks⟩
  · exact absurd hk (counterKeys_ne_nil hne)
  · unfold balance_classes
    rw [hk]
    dsimp only
    rw [flatMap_congr (fun k hkk => hcoll k (hk ▸ hkk))]

/-- The uniform-block structure of the balanced output. -/
theorem balance_blocks_spec (X : List α) (y : List String)
    (hlen : X.length = y.length) :
    ∀ k ∈ counterKeys y,
      (((X.zip y).filter (fun p => p.2 = k)).take (num_instances_per_class y)).length
          = num_instances_per_class y
      ∧ ∀ p ∈ ((X.zip y).filter (fun p => p.2 = k)).take (num_instances_per_class y),
          p.2 = k := by
  intro k hk
  constructor
  · rw [List.length_take, zip_filter_count k X y hlen]
    have := num_le_count hk
    omega
  · intro p hp
    have := (List.mem_filter.mp (List.take_subset _ _ hp)).2
    simpa using this



/-- C2: for every non-empty list of (vector, label) pairs (parallel
lists of equal length), `balance_classes` returns, for each distinct
label in first-occurrence order, exactly the first
`num_instances_per_class` (= minimum pre-balancing class count)
instances of that label in original input order, and every resulting
class has exactly that count. -/
theorem balance_classes_first_m (X : List α) (y : List String)
    (hlen : X.length = y.length) (hne : y ≠ []) :
    balance_classes X y = some
      (((counterKeys y).flatMap
          (fun k => ((X.zip y).filter (fun p => p.2 = k)).take (num_instances_per_class y))).map
        Prod.fst,
       ((counterKeys y).flatMap
          (fun k => ((X.zip y).filter (fun p => p.2 = k)).take (num_instances_per_class y))).map
        Prod.snd)
    ∧ ∀ k ∈ counterKeys y,
        (((counterKeys y).flatMap
            (fun k' => ((X.zip y).filter (fun p => p.2 = k')).take (num_instances_per_class y))).map
          Prod.snd).count k = num_instances_per_class y := by
  refine ⟨balance_classes_eq X y hlen hne, ?_⟩
  intro k hk
  rw [count_flat_blocks (counterKeys_nodup y) hk
    (fun k' hk' => (balance_blocks_spec X y hlen k' hk').2)]
  exact (balance_blocks_spec X y hlen k hk).1

/-- C9: `balance_classes` is idempotent: applied to its own output it
returns that output unchanged (hence the per-class counts are
unchanged). -/
theorem balance_classes_idempotent (X : List α) (y : List String) (bX : List α) (bY : List String)
    (hlen : X.length = y.length) (h : balance_classes X y = some (bX, bY)) :
    balance_classes bX bY = some (bX, bY) := by
  have hne : y ≠ [] := by
    rintro rfl
    rw [show balance_classes X ([] : List String) = none from rfl] at h
    cases h
  have heq := balance_classes_eq X y hlen hne
  rw [h] at heq
  have hout := Option.some.inj heq
  have hX := congrArg Prod.fst hout
  have hY := congrArg Prod.snd hout
  dsimp only at hX hY
  rw [hX, hY]
  exact balance_of_grouped (counterKeys y) _ (num_instances_per_class y)
    (counterKeys_nodup y) (counterKeys_ne_nil hne) (num_pos hne)
    (fun k hk => (balance_blocks_spec X y hlen k hk).1)
    (fun k hk => (balance_blocks_spec X y hlen k hk).2)

/-- C2 witness: a concrete run with classes a (count 2) and b
(count 1): the minimum is 1 and the output keeps the first instance of
each class. -/
theorem balance_classes_first_m_witness :
    balance_classes [10, 20, 30] ["a", "b", "a"] = some ([10, 20], ["a", "b"])
    ∧ (["a", "b"] : List String).count "a" = num_instances_per_class ["a", "b", "a"] := by
  have h := balance_classes_first_m [10, 20, 30] ["a", "b", "a"] (by decide) (by decide)
  refine ⟨?_, by decide⟩
  rw [h.1]
  decide

/-- C9 witness: rebalancing the balanced output of a concrete run
returns it unchanged. -/
theorem balance_classes_idempotent_witness :
    balance_classes [10, 20] ["a", "b"] = some ([10, 20], ["a", "b"]) := by
  refine balance_classes_idempotent [10, 20, 30] ["a", "b", "a"] [10, 20] ["a", "b"] (by decide) ?_
  decide

/-! ## Helper lemmas: the label table -/

theorem lookup_eq_none_of_not_mem :
    ∀ (ps : List (String × String)) (l : String),
      (∀ c, (l, c) ∉ ps) → List.lookup l ps = none := by
  intro ps
  induction ps with
  | nil => intro l _; rfl
  | cons e rest ih =>
    intro l h
    rw [List.lookup_cons]
    have hne : l ≠ e.1 := by
      rintro rfl
      refine h e.2 ?_
      have he : (e.1, e.2) = e := rfl
      rw [he]
      exact List.mem_cons_self e rest
    have hb : (l == e.1) = false := by simpa using hne
    rw [hb]
    exact ih l (fun c hc => h c (List.mem_cons_of_mem e hc))

theorem mem_of_lookup_some :
    ∀ (ps : List (String × String)) (l c : String),
      List.lookup l ps = some c → (l, c) ∈ ps := by
  intro ps
  induction ps with
  | nil => intro l c h; cases h
  | cons e rest ih =>
    intro l c h
    rw [List.lookup_cons] at h
    by_cases hb : l = e.1
    · have hbt : (l == e.1) = true := by simpa using hb
      rw [hbt] at h
      have hc : e.2 = c := Option.some.inj h
      subst hb
      rw [← hc]
      exact List.mem_cons_self e rest
    · have hbf : (l == e.1) = false := by simpa using hb
      rw [hbf] at h
      exact List.mem_cons_of_mem e (ih l c h)

/-! ## Claims about the label table and the data loader -/

/-- C4: the Label Collapser is a pure lookup in `phoneme_mapping`:
every label of the (spec-modelled) 61-label corpus vocabulary except
`q` has a coarse label in the table; a label absent from the table
(in particular `q` itself) yields a failed lookup (`none`, the
KeyError) rather than a silent default; and every successful lookup
returns exactly a table entry. -/
theorem phoneme_mapping_exhaustive_lookup :
    (∀ l ∈ timit_phonemes, l ≠ "q" → (List.lookup l phoneme_mapping).isSome = true)
    ∧ List.lookup "q" phoneme_mapping = none
    ∧ (∀ l : String, (∀ c, (l, c) ∉ phoneme_mapping) → List.lookup l phoneme_mapping = none)
    ∧ (∀ l c, List.lookup l phoneme_mapping = some c → (l, c) ∈ phoneme_mapping)
    ∧ timit_phonemes.length = 61 := by
  refine ⟨by decide, by decide, ?_, ?_, by decide⟩
  · intro l h
    exact lookup_eq_none_of_not_mem phoneme_mapping l h
  · intro l c h
    exact mem_of_lookup_some phoneme_mapping l c h

/-- C4 witness: the fine label `ax` (in the vocabulary, distinct from
`q`) has a coarse label, and an out-of-vocabulary label fails the
lookup. -/
theorem phoneme_mapping_exhaustive_lookup_witness :
    (List.lookup "ax" phoneme_mapping).isSome = true
    ∧ List.lookup "zzz" phoneme_mapping = none := by
  refine ⟨phoneme_mapping_exhaustive_lookup.1 "ax" (by decide) (by decide),
    phoneme_mapping_exhaustive_lookup.2.2.1 "zzz" ?_⟩
  intro c hc
  simp [phoneme_mapping] at hc

/-- C10: with a target label set, `data_loader` keeps a vector iff its
fine-grained label (not its coarse label) is in the set and is not
`q`; in particular `em` (coarse label `m`) is excluded from the target
set `[m, n, ng]` even though `m` is in the set, and `q` is excluded
even when `q` itself is in the target set. -/
theorem data_loader_fine_label_membership :
    (∀ (tbl : List (String × List (Option α))) (t : List String) (v : α),
        v ∈ (data_loader tbl (some t)).1 ↔
          ∃ p lst, (p, lst) ∈ tbl ∧ some v ∈ lst ∧ p ≠ "q" ∧ p ∈ t)
    ∧ data_loader [("em", [some (0 : ℕ)])] (some ["m", "n", "ng"]) = ([], [])
    ∧ List.lookup "em" phoneme_mapping = some "m"
    ∧ "m" ∈ ["m", "n", "ng"]
    ∧ data_loader [("q", [some (0 : ℕ)])] (some ["q"]) = ([], []) := by
  refine ⟨?_, by decide, by decide, by decide, by decide⟩
  intro tbl t v
  unfold data_loader
  dsimp only
  rw [List.mem_map]
  constructor
  · rintro ⟨row, hrow, rfl⟩
    obtain ⟨entry, hentry, hrow2⟩ := List.mem_flatMap.mp hrow
    obtain ⟨i, hi, hFi⟩ := List.mem_filterMap.mp hrow2
    rcases i with _ | w
    · cases hFi
    · dsimp only at hFi
      by_cases h1 : entry.1 ≠ "q"
      · rw [if_pos h1] at hFi
        by_cases h2 : entry.1 ∈ t
        · rw [if_pos h2] at hFi
          have hr := Option.some.inj hFi
          refine ⟨entry.1, entry.2, ?_, ?_, h1, h2⟩
          · exact hentry
          · rw [← hr]
            exact hi
        · rw [if_neg h2] at hFi
          cases hFi
      · rw [if_neg h1] at hFi
        cases hFi
  · rintro ⟨p, lst, hmem, hv, hq, ht⟩
    refine ⟨(v, List.lookup p phoneme_mapping), ?_, rfl⟩
    apply List.mem_flatMap.mpr
    refine ⟨(p, lst), hmem, ?_⟩
    apply List.mem_filterMap.mpr
    refine ⟨some v, hv, ?_⟩
    dsimp only
    rw [if_pos hq, if_pos ht]

/-! ## Claims about the probing loop -/

/-- C6: if the balanced training set of a (layer, category group) pair
contains fewer than two distinct classes, the probe run surfaces an
error rather than computing an accuracy, and the pipeline iteration
propagates it. -/
theorem degenerate_dataset_surfaced :
    (∀ (fit : List α → List String → (α → String)) (bX : List α) (bY : List String)
        (tX : List α) (tY : List String),
        (counterKeys bY).length < 2 →
        run_probe fit bX bY tX tY
          = Except.error "degenerate dataset: fewer than two classes after balancing")
    ∧ (∀ (fit : List α → List String → (α → String))
        (train_table test_table : List (String × List (Option α)))
        (targets : Option (List String)) (bX : List α) (bY : List String),
        balanced_data train_table targets = some (bX, bY) →
        (counterKeys bY).length < 2 →
        (probe_category_layer fit train_table test_table targets).isOk = false) := by
  constructor
  · intro fit bX bY tX tY h
    unfold run_probe
    rw [if_pos h]
  · intro fit ttr tte targets bX bY hb h
    unfold probe_category_layer
    rw [hb]
    dsimp only
    rcases htest : balanced_data tte targets with _ | ⟨tX, tY⟩
    · rfl
    · dsimp only
      unfold run_probe
      rw [if_pos h]
      rfl

/-- C6 witness: a target set restricted to the single class `aa` yields
a one-class balanced dataset and the pipeline reports an error for
it. -/
theorem degenerate_dataset_surfaced_witness :
    run_probe (fun _ _ _ => "aa") [(0 : ℕ)] ["aa"] [0] ["aa"]
      = Except.error "degenerate dataset: fewer than two classes after balancing"
    ∧ (probe_category_layer (fun _ _ _ => "aa") [("aa", [some (0 : ℕ)])]
        [("aa", [some (0 : ℕ)])] (some ["aa"])).isOk = false := by
  refine ⟨degenerate_dataset_surfaced.1 _ [0] ["aa"] [0] ["aa"] (by decide),
    degenerate_dataset_surfaced.2 _ _ _ _ [0] ["aa"] ?_ (by decide)⟩
  decide

/-- C8 counterexample: the probe instance bound to layer 0 is fitted
and evaluated once per category group, i.e. five times per run with the
five category groups of the source — not exactly once per run. -/
theorem probe_single_fit_counterexample :
    fit_total 0 = 5 ∧ fit_total 0 ≠ 1 := by
  decide

/-- C8 amended: each of the 13 probe instances is bound to one layer
index and is re-fitted once per category group (`phoneme_dict.length`
times per run, not once); each (layer, category group) fit/evaluation
depends only on that pair, so the recorded accuracies are computed
independently with no state flowing across layers or category
groups. -/
theorem probe_per_pair_independent :
    (∀ l : ℕ, l < num_layers → fit_total l = phoneme_dict.length)
    ∧ (∀ f g : String → ℕ → ℚ,
        (∀ c l, (c, l) ∈ fit_events → f c l = g c l) → run_all f = run_all g) := by
  constructor
  · decide
  · intro f g h
    unfold run_all
    apply List.map_congr_left
    intro e he
    rw [h e.1 e.2 he]

/-- C8 witness: the layer-0 probe is fitted `phoneme_dict.length`
times per run, and two accuracy functions agreeing on every visited
pair produce the same recorded run. -/
theorem probe_per_pair_independent_witness :
    fit_total 0 = phoneme_dict.length
    ∧ run_all (fun _ _ => (0 : ℚ)) = run_all (fun _ _ => (0 : ℚ)) :=
  ⟨probe_per_pair_independent.1 0 (by decide),
    probe_per_pair_independent.2 _ _ (fun _ _ _ => rfl)⟩

end Probing

